import Mathlib

/-!
Verification of `S33R/scripts/build_news_json.py`, a batch aggregator that
reads an OPML feed list, fetches feeds, normalizes entries, filters by
recency, deduplicates by canonical link and writes a sorted JSON snapshot.

The Python script is shallowly embedded below.  External collaborators
(`feedparser` fetching, `datetime` parsing/formatting, the XML tree walk)
are modelled as opaque data supplied to the pipeline:

* a fetched feed is a list of `RawEntry` records (the fields the script
  reads from a feedparser entry);
* the `datetime` library is a `DTLib` record providing `fromisoformat`
  (returning `none` where Python raises, since the script swallows every
  parse exception) and `isoformat`; a `PyDateTime` is abstracted to its
  instant `ts : Int` together with its `hasTz` flag, and
  `replace(tzinfo=timezone.utc)` on a naive value keeps the instant and
  sets the flag;
* an OPML document is the list of its `outline` nodes in document order,
  each carrying the three attributes the script reads.

Python truthiness on strings (`""` is falsy) and on optional values is
modelled explicitly by the `pyOrStr` / `pyOrOpt` helpers.
-/

/-- Abstraction of a Python `datetime`: the instant it denotes (`ts`) and
whether it carries timezone information (`hasTz`).  Comparison of datetimes
in the script compares instants. -/
structure PyDateTime where
  ts : Int
  hasTz : Bool
deriving DecidableEq, Repr

/-- The `datetime` library as used by the script: `fromisoformat` returns
`none` exactly where Python would raise (the script catches and discards
every such exception), `isoformat` serializes. -/
structure DTLib where
  fromisoformat : String → Option PyDateTime
  isoformat : PyDateTime → String

/-- Python `a or b` where `a` is an optional string and `b` a string:
`None` and `""` are falsy. -/
def pyOrStr (a : Option String) (b : String) : String :=
  match a with
  | some s => if s = "" then b else s
  | none => b

/-- Python `a or b` on two optional strings (`None` and `""` falsy). -/
def pyOrOpt (a b : Option String) : Option String :=
  match a with
  | some s => if s = "" then b else some s
  | none => b

/-- Python `s.lower()` (ASCII case folding, as used on the keyword table). -/
def pyLower (s : String) : String :=
  ⟨s.data.map Char.toLower⟩

/-- Python `s.rstrip("/")`: remove ALL trailing `'/'` characters. -/
def rstripSlashes (s : String) : String :=
  ⟨(s.data.reverse.dropWhile (fun c => c = '/')).reverse⟩

/-- Python substring test `needle in hay` on character lists. -/
def containsSub (hay needle : List Char) : Bool :=
  match hay with
  | [] => needle.isEmpty
  | _ :: t => needle.isPrefixOf hay || containsSub t needle

/-- The `CATEGORY_KEYWORDS` table, in its Python declaration order
(Python dicts iterate in insertion order). -/
def CATEGORY_KEYWORDS : List (String × List String) :=
  [ ("crypto", ["crypto", "blockchain"]),
    ("cybercrime", ["cybercrime", "darknet"]),
    ("dfir", ["dfir", "forensics"]),
    ("general", ["general", "security news", "infosec"]),
    ("gov_cert", ["cert", "government", "gov"]),
    ("leaks", ["leaks", "breaches", "pwned"]),
    ("malware", ["malware", "ransomware"]),
    ("threat_intel", ["threat intel", "apt", "campaigns"]),
    ("malware_analysis", ["malware analysis", "reversing"]),
    ("osint", ["osint", "communities"]),
    ("podcasts", ["podcast"]),
    ("vendors", ["vendor"]),
    ("vulns", ["vulnerab", "cve"]),
    ("exploits", ["exploit", "0day"]),
    ("vuln_advisories", ["advisories", "advisory"]) ]

/-- `any(k in t for k in keywords)`. -/
def keyword_match (t : String) (kws : List String) : Bool :=
  kws.any (fun k => containsSub t.data k.data)

/-- `guess_category_from_title`: lower-case the title, scan the table in
declaration order, return the first category one of whose keywords is a
substring; default `"general"`. -/
def guess_category_from_title (title : String) : String :=
  let t := pyLower title
  match CATEGORY_KEYWORDS.find? (fun p => keyword_match t p.2) with
  | some p => p.1
  | none => "general"

/-- The fields the script reads from a feedparser entry.  `published_parsed`
and `updated_parsed` are feedparser's pre-parsed time structs, abstracted to
the instant `time.mktime` would return for them (the script immediately
converts them with `datetime.fromtimestamp(..., tz=timezone.utc)`). -/
structure RawEntry where
  title : Option String
  link : Option String
  summary : Option String
  description : Option String
  published_parsed : Option Int
  updated_parsed : Option Int
  published : Option String
  updated : Option String
deriving Repr

/-- The normalized record built by `parse_entry` (a Python dict in the
script); `published` is the `isoformat` string or `None`. -/
structure NewsItem where
  title : String
  link : String
  summary : String
  source : String
  category : String
  published : Option String
deriving DecidableEq, Repr

/-- Python `published.replace(tzinfo=timezone.utc)` applied only when the
value is naive: keep the instant, mark it timezone-aware. -/
def assumeUtc (d : PyDateTime) : PyDateTime :=
  if d.hasTz then d else { d with hasTz := true }

/-- The `published` resolution chain of `parse_entry` (lines 95-108):
structured `published_parsed`, then structured `updated_parsed`, then the
raw `published`/`updated` string via `fromisoformat` with UTC assumed when
naive; a parse failure (a raised exception in Python) yields `none`. -/
def resolve_published (lib : DTLib) (entry : RawEntry) : Option PyDateTime :=
  match entry.published_parsed with
  | some t => some { ts := t, hasTz := true }
  | none =>
    match entry.updated_parsed with
    | some t => some { ts := t, hasTz := true }
    | none =>
      match pyOrOpt entry.published entry.updated with
      | none => none
      | some raw =>
        if raw = "" then none
        else
          match lib.fromisoformat raw with
          | none => none
          | some dt => some (assumeUtc dt)

/-- `parse_entry(entry, source_title, category)`: drop the entry when title
or link is missing/empty, otherwise build the normalized record, with the
summary falling back through `summary`/`description` to `""`. -/
def parse_entry (lib : DTLib) (entry : RawEntry) (source_title : String)
    (category : String) : Option NewsItem :=
  let title := pyOrStr entry.title ""
  let link := pyOrStr entry.link ""
  if title = "" ∨ link = "" then none
  else
    some { title := title
           link := link
           summary := pyOrStr entry.summary (pyOrStr entry.description "")
           source := source_title
           category := category
           published := (resolve_published lib entry).map lib.isoformat }

/-- The `all_items` mapping: a Python dict from canonical link to item,
i.e. an insertion-ordered association list with unique keys. -/
abbrev Dict := List (String × NewsItem)

/-- Python `d.get(k)` on the mapping. -/
def dictGet (m : Dict) (k : String) : Option NewsItem :=
  (m.find? (fun p => p.1 = k)).map (fun p => p.2)

/-- Python `d[k] = v` on the mapping: update in place (keeping the key's
position) when present, append otherwise. -/
def dictSet (m : Dict) (k : String) (v : NewsItem) : Dict :=
  if m.any (fun p => p.1 = k) then
    m.map (fun p => if p.1 = k then (k, v) else p)
  else
    m ++ [(k, v)]

/-- Python `list(d.values())`. -/
def dictValues (m : Dict) : List NewsItem :=
  m.map (fun p => p.2)

/-- The keys of the mapping, in insertion order. -/
def dictKeys (m : Dict) : List String :=
  m.map (fun p => p.1)

/-- Lines 141-150 of `main`: re-parse the incoming item's serialized
`published` (`pub_dt`), assuming UTC when naive; `""`/`None`/parse failure
give `none`. -/
def recencyParse (lib : DTLib) (item : NewsItem) : Option PyDateTime :=
  match item.published with
  | none => none
  | some s =>
    if s = "" then none
    else
      match lib.fromisoformat s with
      | none => none
      | some dt => some (assumeUtc dt)

/-- Lines 158-163 of `main`: parse the existing stored item's `published`
(`existing_dt`); no UTC replacement here, `""`/`None`/failure give `none`. -/
def existingParse (lib : DTLib) (item : NewsItem) : Option PyDateTime :=
  match item.published with
  | none => none
  | some s => if s = "" then none else lib.fromisoformat s

/-- Line 164's guard `existing_dt and pub_dt and pub_dt <= existing_dt`. -/
def keepExisting (existing_dt pub_dt : Option PyDateTime) : Bool :=
  match existing_dt, pub_dt with
  | some e, some p => p.ts ≤ e.ts
  | _, _ => false

/-- Line 152's guard `pub_dt and pub_dt < cutoff`. -/
def dropOld (pub_dt : Option PyDateTime) (cutoff : Int) : Bool :=
  match pub_dt with
  | some d => d.ts < cutoff
  | none => false

/-- Lines 155-166 of `main`: the merge of one incoming item (with its
already computed `pub_dt`) into the mapping, keyed by the link with
trailing slashes stripped. -/
def merge_step (lib : DTLib) (m : Dict) (item : NewsItem)
    (pub_dt : Option PyDateTime) : Dict :=
  match dictGet m (rstripSlashes item.link) with
  | some existing =>
    if keepExisting (existingParse lib existing) pub_dt then m
    else dictSet m (rstripSlashes item.link) item
  | none => dictSet m (rstripSlashes item.link) item

/-- The merge applied to an incoming item, with `pub_dt` computed from the
item as in lines 141-150. -/
def mergeItem (lib : DTLib) (m : Dict) (item : NewsItem) : Dict :=
  merge_step lib m item (recencyParse lib item)

/-- Lines 141-166 of `main` for one normalized item: recency filter
(`continue` when provably older than the cutoff) then merge. -/
def processItem (lib : DTLib) (cutoff : Int) (m : Dict) (item : NewsItem) :
    Dict :=
  let pub_dt := recencyParse lib item
  if dropOld pub_dt cutoff then m else merge_step lib m item pub_dt

/-- The entry loop of `main` for one feed's fetched entries: normalize,
skip `None`, filter and merge.  (A feedparser `bozo` flag only logs.) -/
def processEntries (lib : DTLib) (cutoff : Int) (feed_title category : String)
    (m : Dict) (entries : List RawEntry) : Dict :=
  entries.foldl
    (fun m e =>
      match parse_entry lib e feed_title category with
      | none => m
      | some item => processItem lib cutoff m item) m

/-- The feed loop of `main`, started from a given mapping.  A subscription
is a `(title, url, category)` triple; `fetch` stands for
`feedparser.parse`, returning the entries of a url.  `cutoff` is computed
once, before the loop (line 128). -/
def aggregate_from (lib : DTLib) (cutoff : Int)
    (feeds : List (String × String × String))
    (fetch : String → List RawEntry) (m0 : Dict) : Dict :=
  feeds.foldl
    (fun m f => processEntries lib cutoff f.1 f.2.2 m (fetch f.2.1)) m0

/-- The aggregation of `main`, from the empty mapping. -/
def aggregate (lib : DTLib) (cutoff : Int)
    (feeds : List (String × String × String))
    (fetch : String → List RawEntry) : Dict :=
  aggregate_from lib cutoff feeds fetch []

/-- The writer's `sort_key` (lines 170-177): missing/empty/unparseable
`published` gives `0`, otherwise the parsed instant. -/
def sort_key (lib : DTLib) (x : NewsItem) : Int :=
  match x.published with
  | none => 0
  | some p =>
    if p = "" then 0
    else
      match lib.fromisoformat p with
      | none => 0
      | some d => d.ts

/-- Lines 168-179: `items_list = list(all_items.values())` sorted stably,
descending by `sort_key`. -/
def items_list (lib : DTLib) (m : Dict) : List NewsItem :=
  (dictValues m).mergeSort (fun a b => sort_key lib b ≤ sort_key lib a)

/-- An OPML `outline` node, reduced to the attributes the script reads. -/
structure Outline where
  xmlUrl : Option String
  title : Option String
  text : Option String
deriving Repr

/-- The display title of an outline (line 69): `title` or `text` or url. -/
def outlineTitle (e : Outline) (u : String) : String :=
  pyOrStr e.title (pyOrStr e.text u)

/-- The string the classifier is applied to (lines 70-77): the script
joins `filter(None, [title or text or ""])` with `" / "`, which collapses
to `title or text or ""` itself. -/
def outlineCatText (e : Outline) : String :=
  pyOrStr e.title (pyOrStr e.text "")

/-- One iteration of the `parse_opml` loop, on the `(feeds, seen)` state:
skip a node without a (non-empty) `xmlUrl` or whose url was already seen,
else append the `(title, url, category)` triple and mark the url seen. -/
def opmlStep (st : List (String × String × String) × List String)
    (elem : Outline) : List (String × String × String) × List String :=
  match elem.xmlUrl with
  | none => st
  | some u =>
    if u = "" ∨ u ∈ st.2 then st
    else
      (st.1 ++ [(outlineTitle elem u, u,
                 guess_category_from_title (outlineCatText elem))],
       u :: st.2)

/-- `parse_opml`, over the document-ordered list of `outline` nodes. -/
def parse_opml (outlines : List Outline) : List (String × String × String) :=
  (outlines.foldl opmlStep ([], [])).1

/-- Modelled from the spec (section 4.2): the Subscription Loader emits, in
order, one `(title, url, category)` triple per outline node possessing a
non-empty feed url, keeping the first occurrence of each url and silently
dropping later duplicates; the title falls back `title` → `text` → url and
the category classifies the `title`/`text` string. -/
def loadSpec : List Outline → List (String × String × String)
  | [] => []
  | e :: rest =>
    match e.xmlUrl with
    | none => loadSpec rest
    | some u =>
      if u = "" then loadSpec rest
      else
        (outlineTitle e u, u, guess_category_from_title (outlineCatText e)) ::
          loadSpec (rest.filter (fun x => x.xmlUrl ≠ some u))
termination_by l => l.length
decreasing_by
  all_goals simp only [List.length_cons]
  all_goals try omega
  exact Nat.lt_succ_of_le (List.length_filter_le _ _)

/-- A small concrete datetime library used to evaluate the pipeline on
concrete inputs: a finite table of parseable strings. -/
def lib0 : DTLib where
  fromisoformat := fun s =>
    if s = "E10" then some ⟨10, true⟩
    else if s = "I5" then some ⟨5, true⟩
    else if s = "N20" then some ⟨20, false⟩
    else if s = "OLD" then some ⟨-100, true⟩
    else none
  isoformat := fun d =>
    if d.ts = 10 then "E10"
    else if d.ts = 5 then "I5"
    else if d.ts = 20 then "N20"
    else if d.ts = -100 then "OLD"
    else ""

/-- Concrete stored item ("existing") for concrete evaluations. -/
def exK : NewsItem :=
  { title := "Existing", link := "http://e.com/p", summary := "",
    source := "Feed", category := "general", published := some "E10" }

/-- Concrete incoming item, same canonical link as `exK`, older. -/
def inK : NewsItem :=
  { title := "Incoming", link := "http://e.com/p/", summary := "",
    source := "Feed", category := "general", published := some "I5" }

/-- Concrete one-entry mapping holding `exK`. -/
def mK : Dict := [("http://e.com/p", exK)]

/-- Concrete item dated well before any nonnegative cutoff. -/
def itemOld : NewsItem :=
  { title := "Old", link := "http://o.com/x", summary := "",
    source := "Feed", category := "general", published := some "OLD" }

/-- Concrete item with no timestamp at all. -/
def itemNoDate : NewsItem :=
  { title := "NoDate", link := "http://n.com/x", summary := "",
    source := "Feed", category := "general", published := none }

/-- Concrete raw entry with a structured published time. -/
def entryFull : RawEntry :=
  { title := some "T", link := some "http://e.com/a", summary := none,
    description := none, published_parsed := some 42, updated_parsed := none,
    published := none, updated := none }

/-- Concrete raw entry missing its title. -/
def entryNoTitle : RawEntry :=
  { title := none, link := some "http://e.com/a", summary := none,
    description := none, published_parsed := none, updated_parsed := none,
    published := none, updated := none }

/-- The evolution of the value stored under one fixed canonical link as
incoming items for that link are merged (derived from `merge_step`):
`none` means the key is absent and the item is inserted; otherwise the
existing item is kept exactly under line 164's guard. -/
def stepK (lib : DTLib) (s : Option NewsItem) (it : NewsItem) : NewsItem :=
  match s with
  | none => it
  | some ex =>
    if keepExisting (existingParse lib ex) (recencyParse lib it) then ex
    else it

/-- Folding `stepK` over the incoming items of one canonical link. -/
def foldK (lib : DTLib) (s : Option NewsItem) (l : List NewsItem) :
    Option NewsItem :=
  l.foldl (fun s it => some (stepK lib s it)) s

/-- The instant an item's serialized `published` parses to (via the
merge's existing-side parse), `none` when unknown/unparseable. -/
def pkTs (lib : DTLib) (it : NewsItem) : Option Int :=
  (existingParse lib it).map (fun d => d.ts)

/-- The stream of normalized items the feed loop processes, in order:
for each subscription in order, the fetched entries that `parse_entry`
accepts. -/
def itemStream (lib : DTLib) (feeds : List (String × String × String))
    (fetch : String → List RawEntry) : List NewsItem :=
  feeds.foldr
    (fun f acc =>
      (fetch f.2.1).filterMap (fun e => parse_entry lib e f.1 f.2.2) ++ acc) []

/-! ## Association-list (Python dict) lemmas -/

theorem dictGet_nil (k : String) : dictGet [] k = none := rfl

theorem dictGet_cons (k' : String) (v : NewsItem) (m : Dict) (k : String) :
    dictGet ((k', v) :: m) k = if k' = k then some v else dictGet m k := by
  by_cases h : k' = k <;> simp [dictGet, List.find?_cons, h]

theorem dictGet_mem_values {m : Dict} {k : String} {it : NewsItem}
    (h : dictGet m k = some it) : it ∈ dictValues m := by
  induction m with
  | nil => simp [dictGet] at h
  | cons a t ih =>
    obtain ⟨k', v⟩ := a
    rw [dictGet_cons] at h
    by_cases hk : k' = k
    · rw [if_pos hk] at h
      injection h with h
      simp [dictValues, h]
    · rw [if_neg hk] at h
      simp only [dictValues, List.map_cons, List.mem_cons]
      exact Or.inr (ih h)

theorem any_eq_mem_dictKeys (m : Dict) (k : String) :
    m.any (fun p => p.1 = k) = true ↔ k ∈ dictKeys m := by
  simp only [List.any_eq_true, decide_eq_true_eq, dictKeys, List.mem_map]

theorem dictGet_replace_self (k : String) (v : NewsItem) (m : Dict)
    (hmem : k ∈ dictKeys m) :
    dictGet (m.map (fun p => if p.1 = k then (k, v) else p)) k = some v := by
  induction m with
  | nil => simp [dictKeys] at hmem
  | cons a t ih =>
    obtain ⟨k₀, v₀⟩ := a
    simp only [List.map_cons]
    by_cases h0 : k₀ = k
    · simp [dictGet_cons, h0]
    · simp only [dictKeys, List.map_cons, List.mem_cons] at hmem
      rcases hmem with hmem | hmem
      · exact absurd hmem.symm h0
      · simp only [h0, if_false, dictGet_cons, if_neg h0]
        exact ih hmem

theorem dictGet_replace_ne (k k' : String) (v : NewsItem) (m : Dict)
    (h : k' ≠ k) :
    dictGet (m.map (fun p => if p.1 = k then (k, v) else p)) k' =
      dictGet m k' := by
  induction m with
  | nil => rfl
  | cons a t ih =>
    obtain ⟨k₀, v₀⟩ := a
    simp only [List.map_cons]
    by_cases h0 : k₀ = k
    · simp only [h0, if_true, dictGet_cons]
      rw [if_neg (fun hh => h hh.symm), if_neg (fun hh => h hh.symm)]
      exact ih
    · simp only [h0, if_false, dictGet_cons]
      by_cases h1 : k₀ = k'
      · rw [if_pos h1, if_pos h1]
      · rw [if_neg h1, if_neg h1]
        exact ih

theorem dictGet_append_single_self (k : String) (v : NewsItem) (m : Dict)
    (hmem : k ∉ dictKeys m) :
    dictGet (m ++ [(k, v)]) k = some v := by
  induction m with
  | nil => simp [dictGet_cons]
  | cons a t ih =>
    obtain ⟨k₀, v₀⟩ := a
    simp only [dictKeys, List.map_cons, List.mem_cons, not_or] at hmem
    rw [List.cons_append, dictGet_cons, if_neg (fun hh => hmem.1 hh.symm)]
    exact ih (by simpa [dictKeys] using hmem.2)

theorem dictGet_append_single_ne (k k' : String) (v : NewsItem) (m : Dict)
    (h : k' ≠ k) :
    dictGet (m ++ [(k, v)]) k' = dictGet m k' := by
  induction m with
  | nil =>
    rw [List.nil_append, dictGet_cons, if_neg (fun hh => h hh.symm), dictGet_nil]
  | cons a t ih =>
    obtain ⟨k₀, v₀⟩ := a
    rw [List.cons_append, dictGet_cons, dictGet_cons]
    by_cases h1 : k₀ = k'
    · rw [if_pos h1, if_pos h1]
    · rw [if_neg h1, if_neg h1]
      exact ih

theorem dictGet_set_self (m : Dict) (k : String) (v : NewsItem) :
    dictGet (dictSet m k v) k = some v := by
  unfold dictSet
  by_cases hmem : k ∈ dictKeys m
  · rw [if_pos ((any_eq_mem_dictKeys m k).mpr hmem)]
    exact dictGet_replace_self k v m hmem
  · rw [if_neg (fun hh => hmem ((any_eq_mem_dictKeys m k).mp hh))]
    exact dictGet_append_single_self k v m hmem

theorem dictGet_set_of_ne (m : Dict) (k k' : String) (v : NewsItem)
    (h : k' ≠ k) : dictGet (dictSet m k v) k' = dictGet m k' := by
  unfold dictSet
  by_cases hmem : k ∈ dictKeys m
  · rw [if_pos ((any_eq_mem_dictKeys m k).mpr hmem)]
    exact dictGet_replace_ne k k' v m h
  · rw [if_neg (fun hh => hmem ((any_eq_mem_dictKeys m k).mp hh))]
    exact dictGet_append_single_ne k k' v m h

/-! ## Canonical link key (claim C2, corrected; claim C10 uses it too) -/

/-- Claim C2 counterexample: the claim says a link ending in two or more
trailing slashes has only ONE of them removed, so the key of
`"http://e.com/p//"` would be `"http://e.com/p/"`.  The code uses Python
`rstrip("/")`, which removes them ALL. -/
theorem claim_C2_counterexample :
    rstripSlashes "http://e.com/p//" = "http://e.com/p" ∧
      rstripSlashes "http://e.com/p//" ≠ "http://e.com/p/" := by
  exact ⟨by decide, by decide⟩

/-- Claim C2, amended: the canonical dedup key used by the merge
(`rstripSlashes item.link` in `merge_step`) equals the link with ALL
trailing `'/'` characters removed — the result never ends in `'/'`, the
link is exactly the result followed by some number of `'/'`, and a link
not ending in `'/'` is left unchanged (no scheme/host/case/query
transformation). -/
theorem claim_C2_amended (s : String) :
    (rstripSlashes s).data.getLast? ≠ some '/' ∧
      (∃ n, s = rstripSlashes s ++ ⟨List.replicate n '/'⟩) ∧
      (s.data.getLast? ≠ some '/' → rstripSlashes s = s) := by
  refine ⟨?_, ?_, ?_⟩
  · show ((s.data.reverse.dropWhile (fun c => c = '/')).reverse).getLast? ≠ some '/'
    rw [List.getLast?_reverse]
    have h1 := List.head?_dropWhile_not (fun c => decide (c = '/')) s.data.reverse
    intro hc
    rw [hc] at h1
    simp at h1
  · refine ⟨(s.data.reverse.takeWhile (fun c => c = '/')).length, ?_⟩
    have hsplit := List.takeWhile_append_dropWhile
      (p := fun c => decide (c = '/')) (l := s.data.reverse)
    have hrepl : (s.data.reverse.takeWhile (fun c => decide (c = '/'))).reverse =
        List.replicate (s.data.reverse.takeWhile (fun c => decide (c = '/'))).length '/' := by
      rw [List.eq_replicate_iff]
      refine ⟨by simp, fun b hb => ?_⟩
      have := List.mem_takeWhile_imp (List.mem_reverse.mp hb)
      simpa using this
    have hdata : s.data =
        ((s.data.reverse.dropWhile (fun c => c = '/')).reverse) ++
          List.replicate (s.data.reverse.takeWhile (fun c => c = '/')).length '/' := by
      conv_lhs => rw [← s.data.reverse_reverse, ← hsplit]
      rw [List.reverse_append, hrepl]
    show s = (⟨(s.data.reverse.dropWhile (fun c => c = '/')).reverse⟩ : String) ++
      (⟨List.replicate (s.data.reverse.takeWhile (fun c => c = '/')).length '/'⟩ : String)
    cases s with
    | mk data =>
      show String.mk data = String.mk _
      exact congrArg String.mk hdata
  · intro h
    cases hd : s.data.reverse with
    | nil =>
      have : s.data = [] := by
        have := congrArg List.reverse hd
        simpa using this
      show (⟨(s.data.reverse.dropWhile (fun c => c = '/')).reverse⟩ : String) = s
      cases s with
      | mk data =>
        simp only at this
        subst this
        rfl
    | cons c t =>
      have hc : c ≠ '/' := by
        intro hc
        apply h
        rw [← List.head?_reverse, hd, hc]
        rfl
      show (⟨(s.data.reverse.dropWhile (fun c => c = '/')).reverse⟩ : String) = s
      rw [hd, List.dropWhile_cons, if_neg (by simpa using hc), ← hd,
        List.reverse_reverse]

/-- Claim C2 witness: a link with no trailing slash is its own key. -/
theorem claim_C2_witness : rstripSlashes "http://x.example/a" = "http://x.example/a" :=
  (claim_C2_amended "http://x.example/a").2.2 (by decide)

/-! ## Category classifier (claim C5) -/

theorem find?_of_getD_first {α : Type} (p : α → Bool) (d : α) :
    ∀ (l : List α) (i : Nat), i < l.length → p (l.getD i d) = true →
      (∀ j, j < i → p (l.getD j d) = false) →
      l.find? p = some (l.getD i d) := by
  intro l
  induction l with
  | nil => intro i hi _ _; simp at hi
  | cons a t ih =>
    intro i hi hp hprev
    cases i with
    | zero =>
      simp only [List.getD_cons_zero] at hp ⊢
      exact List.find?_cons_of_pos t hp
    | succ n =>
      have h0 : p a = false := by
        have := hprev 0 (Nat.succ_pos n)
        simpa using this
      rw [List.find?_cons_of_neg t (by simp [h0]), List.getD_cons_succ]
      exact ih n (by simpa using hi) (by simpa using hp)
        (fun j hj => by simpa using hprev (j + 1) (by omega))

/-- Claim C5: `guess_category_from_title` is a total deterministic pure
function (a Lean function by construction): it always returns either
`"general"` or a category of the table; when no keyword of any category
matches the lower-cased title it returns `"general"`; and when the category
at table index `i` matches while every earlier category does not, it
returns that category — so of two matching categories the one declared
earlier in `CATEGORY_KEYWORDS` wins. -/
theorem claim_C5 (title : String) :
    (guess_category_from_title title = "general" ∨
      ∃ p ∈ CATEGORY_KEYWORDS, guess_category_from_title title = p.1) ∧
    ((∀ p ∈ CATEGORY_KEYWORDS, keyword_match (pyLower title) p.2 = false) →
      guess_category_from_title title = "general") ∧
    (∀ i, i < CATEGORY_KEYWORDS.length →
      keyword_match (pyLower title) (CATEGORY_KEYWORDS.getD i ("", [])).2 = true →
      (∀ j, j < i →
        keyword_match (pyLower title) (CATEGORY_KEYWORDS.getD j ("", [])).2 = false) →
      guess_category_from_title title = (CATEGORY_KEYWORDS.getD i ("", [])).1) := by
  refine ⟨?_, ?_, ?_⟩
  · cases hfind : CATEGORY_KEYWORDS.find? (fun p => keyword_match (pyLower title) p.2) with
    | none => left; simp [guess_category_from_title, hfind]
    | some p =>
      right
      exact ⟨p, List.mem_of_find?_eq_some hfind,
        by simp [guess_category_from_title, hfind]⟩
  · intro hall
    have hfind : CATEGORY_KEYWORDS.find?
        (fun p => keyword_match (pyLower title) p.2) = none :=
      List.find?_eq_none.mpr (fun x hx => by simp [hall x hx])
    simp [guess_category_from_title, hfind]
  · intro i hi hp hprev
    have hfind := find?_of_getD_first
      (fun p => keyword_match (pyLower title) p.2) ("", ([] : List String))
      CATEGORY_KEYWORDS i hi hp hprev
    simp [guess_category_from_title, hfind]

/-- Claim C5 witness: "Malware Analysis Blog" matches the `malware`
keywords at table index 6 and nothing earlier, hence classifies as
`malware` (table order, not the later `malware_analysis`). -/
theorem claim_C5_witness :
    guess_category_from_title "Malware Analysis Blog" = "malware" :=
  (claim_C5 "Malware Analysis Blog").2.2 6 (by decide) (by decide) (by decide)

/-! ## Entry normalization (claims C4 and C6) -/

/-- Claim C4: `parse_entry` returns `none` whenever the raw entry's title
or link is missing or empty; otherwise it returns an item whose title and
link are non-empty, with the summary defaulting to `""` when no
summary/description field is present. -/
theorem claim_C4 (lib : DTLib) (entry : RawEntry) (st cat : String) :
    ((pyOrStr entry.title "" = "" ∨ pyOrStr entry.link "" = "") →
      parse_entry lib entry st cat = none) ∧
    (pyOrStr entry.title "" ≠ "" → pyOrStr entry.link "" ≠ "" →
      ∃ it, parse_entry lib entry st cat = some it ∧
        it.title ≠ "" ∧ it.link ≠ "" ∧
        (entry.summary = none → entry.description = none → it.summary = "")) := by
  constructor
  · intro h
    simp only [parse_entry, if_pos h]
  · intro ht hl
    refine ⟨{ title := pyOrStr entry.title "", link := pyOrStr entry.link "",
              summary := pyOrStr entry.summary (pyOrStr entry.description ""),
              source := st, category := cat,
              published := (resolve_published lib entry).map lib.isoformat },
            ?_, ht, hl, ?_⟩
    · simp only [parse_entry]
      rw [if_neg (not_or.mpr ⟨ht, hl⟩)]
    · intro hs hd
      simp [hs, hd, pyOrStr]

/-- Claim C4 witness: an entry without a title is dropped; an entry with
both fields yields an item with them non-empty. -/
theorem claim_C4_witness : parse_entry lib0 entryNoTitle "s" "c" = none :=
  (claim_C4 lib0 entryNoTitle "s" "c").1 (Or.inl rfl)

/-- Claim C6: the `published` timestamp is resolved by trying, in order,
the structured `published_parsed` time, the structured `updated_parsed`
time, then the raw `published`/`updated` string via `fromisoformat` with
UTC assumed when the parsed value is naive; a parse failure on the raw
string (a swallowed exception) or the absence of all three sources yields
`none`, and the resulting `NewsItem.published` is the `isoformat` of the
resolved value. -/
theorem claim_C6 (lib : DTLib) (entry : RawEntry) (st cat : String) :
    (∀ t, entry.published_parsed = some t →
      resolve_published lib entry = some ⟨t, true⟩) ∧
    (entry.published_parsed = none → ∀ t, entry.updated_parsed = some t →
      resolve_published lib entry = some ⟨t, true⟩) ∧
    (entry.published_parsed = none → entry.updated_parsed = none →
      ∀ s, pyOrOpt entry.published entry.updated = some s → s ≠ "" →
        (∀ d, lib.fromisoformat s = some d →
          resolve_published lib entry = some (assumeUtc d)) ∧
        (lib.fromisoformat s = none → resolve_published lib entry = none)) ∧
    (entry.published_parsed = none → entry.updated_parsed = none →
      (pyOrOpt entry.published entry.updated = none ∨
        pyOrOpt entry.published entry.updated = some "") →
      resolve_published lib entry = none) ∧
    (pyOrStr entry.title "" ≠ "" → pyOrStr entry.link "" ≠ "" →
      ∃ it, parse_entry lib entry st cat = some it ∧
        it.published = (resolve_published lib entry).map lib.isoformat) := by
  refine ⟨?_, ?_, ?_, ?_, ?_⟩
  · intro t ht
    simp [resolve_published, ht]
  · intro hp t ht
    simp [resolve_published, hp, ht]
  · intro hp hu s hs hne
    constructor
    · intro d hd
      simp [resolve_published, hp, hu, hs, hne, hd]
    · intro hd
      simp [resolve_published, hp, hu, hs, hne, hd]
  · intro hp hu hraw
    rcases hraw with hraw | hraw
    · simp [resolve_published, hp, hu, hraw]
    · simp [resolve_published, hp, hu, hraw]
  · intro ht hl
    refine ⟨{ title := pyOrStr entry.title "", link := pyOrStr entry.link "",
              summary := pyOrStr entry.summary (pyOrStr entry.description ""),
              source := st, category := cat,
              published := (resolve_published lib entry).map lib.isoformat },
            ?_, rfl⟩
    simp only [parse_entry]
    rw [if_neg (not_or.mpr ⟨ht, hl⟩)]

/-- Claim C6 witness: a structured `published_parsed` time wins. -/
theorem claim_C6_witness : resolve_published lib0 entryFull = some ⟨42, true⟩ :=
  (claim_C6 lib0 entryFull "s" "c").1 42 rfl

/-! ## Recency filter and merge (claims C3 and C1) -/

/-- Claim C3: an item whose `published` parses and is strictly earlier
than the cutoff is discarded by the recency filter (the mapping is left
unchanged); an item whose `published` is unknown or unparseable is never
filtered by recency — it always proceeds to the merge. -/
theorem claim_C3 (lib : DTLib) (cutoff : Int) (m : Dict) (item : NewsItem) :
    (∀ d, recencyParse lib item = some d → d.ts < cutoff →
      processItem lib cutoff m item = m) ∧
    (recencyParse lib item = none →
      processItem lib cutoff m item = merge_step lib m item none) := by
  constructor
  · intro d hd hlt
    simp [processItem, hd, dropOld, hlt]
  · intro hd
    simp [processItem, hd, dropOld]

/-- Claim C3 witness: with cutoff `0`, the item dated at instant `-100` is
discarded and the mapping is unchanged. -/
theorem claim_C3_witness : processItem lib0 0 mK itemOld = mK :=
  (claim_C3 lib0 0 mK itemOld).1 ⟨-100, true⟩ (by decide) (by decide)

/-- Claim C1: in the merge, when the canonical link of the incoming item
already has an entry: if both the existing and the incoming `published`
parse and the existing instant is greater than or equal to the incoming
one, the existing item is retained verbatim (the mapping is unchanged); in
every other case — existing unknown/unparseable, incoming
unknown/unparseable, or incoming strictly newer — the incoming item
overwrites the entry. -/
theorem claim_C1 (lib : DTLib) (m : Dict) (item ex : NewsItem)
    (hex : dictGet m (rstripSlashes item.link) = some ex) :
    (∀ e p, existingParse lib ex = some e → recencyParse lib item = some p →
      p.ts ≤ e.ts → mergeItem lib m item = m) ∧
    (existingParse lib ex = none →
      mergeItem lib m item = dictSet m (rstripSlashes item.link) item) ∧
    (recencyParse lib item = none →
      mergeItem lib m item = dictSet m (rstripSlashes item.link) item) ∧
    (∀ e p, existingParse lib ex = some e → recencyParse lib item = some p →
      e.ts < p.ts → mergeItem lib m item = dictSet m (rstripSlashes item.link) item) := by
  refine ⟨?_, ?_, ?_, ?_⟩
  · intro e p he hp hle
    simp [mergeItem, merge_step, hex, he, hp, keepExisting, hle]
  · intro he
    simp [mergeItem, merge_step, hex, he, keepExisting]
  · intro hp
    cases he : existingParse lib ex with
    | none => simp [mergeItem, merge_step, hex, he, hp, keepExisting]
    | some e => simp [mergeItem, merge_step, hex, he, hp, keepExisting]
  · intro e p he hp hlt
    simp [mergeItem, merge_step, hex, he, hp, keepExisting, not_le.mpr hlt]

/-- Claim C1 witness: the stored item dated at instant `10` survives an
incoming item for the same canonical link dated at instant `5`. -/
theorem claim_C1_witness : mergeItem lib0 mK inK = mK :=
  (claim_C1 lib0 mK inK exK (by decide)).1 ⟨10, true⟩ ⟨5, true⟩
    (by decide) (by decide) (by decide)

/-! ## Key invariant of the mapping (claim C10) -/

theorem dictGet_set_cases (m : Dict) (k k' : String) (v it : NewsItem)
    (h : dictGet (dictSet m k v) k' = some it) :
    (k' = k ∧ it = v) ∨ dictGet m k' = some it := by
  by_cases hk : k' = k
  · left
    refine ⟨hk, ?_⟩
    rw [hk, dictGet_set_self] at h
    injection h with h
    exact h.symm
  · right
    rw [dictGet_set_of_ne m k k' v hk] at h
    exact h

/-- Claim C10: every merge step preserves the invariant that each key of
the mapping is its stored item's link with trailing slashes stripped,
while the stored items themselves are kept verbatim — the value under a
key is either an item already in the mapping (its original link field
untouched) or the incoming item itself. -/
theorem claim_C10 (lib : DTLib) (cutoff : Int) (m : Dict) (x : NewsItem)
    (hinv : ∀ k it, dictGet m k = some it → k = rstripSlashes it.link) :
    ∀ k it, dictGet (processItem lib cutoff m x) k = some it →
      k = rstripSlashes it.link ∧ (it ∈ dictValues m ∨ it = x) := by
  intro k it h
  have hbase : dictGet m k = some it →
      k = rstripSlashes it.link ∧ (it ∈ dictValues m ∨ it = x) :=
    fun hm => ⟨hinv k it hm, Or.inl (dictGet_mem_values hm)⟩
  unfold processItem at h
  by_cases hdrop : dropOld (recencyParse lib x) cutoff
  · rw [if_pos hdrop] at h
    exact hbase h
  · rw [if_neg hdrop] at h
    unfold merge_step at h
    split at h
    · split at h
      · exact hbase h
      · rcases dictGet_set_cases m (rstripSlashes x.link) k x it h with ⟨hk, hit⟩ | hm
        · exact ⟨by rw [hk, hit], Or.inr hit⟩
        · exact hbase hm
    · rcases dictGet_set_cases m (rstripSlashes x.link) k x it h with ⟨hk, hit⟩ | hm
      · exact ⟨by rw [hk, hit], Or.inr hit⟩
      · exact hbase hm

/-- Claim C10 witness: inserting `inK` (link `"http://e.com/p/"`) into the
empty mapping stores it verbatim under the stripped key. -/
theorem claim_C10_witness :
    "http://e.com/p" = rstripSlashes inK.link ∧
      (inK ∈ dictValues [] ∨ inK = inK) :=
  claim_C10 lib0 0 [] inK
    (fun k it h => by simp [dictGet] at h)
    "http://e.com/p" inK (by decide)

/-! ## Merge idempotence (claim C7): timestamp-projection lemmas -/

theorem assumeUtc_ts (d : PyDateTime) : (assumeUtc d).ts = d.ts := by
  unfold assumeUtc
  by_cases h : d.hasTz <;> simp [h]

theorem recency_existing_ts (lib : DTLib) (it : NewsItem) :
    (recencyParse lib it).map (fun d => d.ts) = pkTs lib it := by
  unfold recencyParse pkTs existingParse
  cases it.published with
  | none => rfl
  | some s =>
    by_cases hs : s = ""
    · simp [hs]
    · cases hd : lib.fromisoformat s with
      | none => simp [hs, hd]
      | some d => simp [hs, hd, assumeUtc_ts]

theorem recencyParse_eq_none_iff (lib : DTLib) (it : NewsItem) :
    recencyParse lib it = none ↔ pkTs lib it = none := by
  constructor
  · intro h
    have := recency_existing_ts lib it
    rw [h] at this
    exact this.symm
  · intro h
    have := recency_existing_ts lib it
    rw [h] at this
    exact Option.map_eq_none.mp this

theorem recencyParse_ts (lib : DTLib) (it : NewsItem) (b : Int)
    (h : pkTs lib it = some b) :
    ∃ p, recencyParse lib it = some p ∧ p.ts = b := by
  have hmap := recency_existing_ts lib it
  rw [h] at hmap
  cases hr : recencyParse lib it with
  | none => rw [hr] at hmap; simp at hmap
  | some p =>
    rw [hr] at hmap
    simp at hmap
    exact ⟨p, rfl, hmap⟩

theorem existingParse_of_pkTs (lib : DTLib) (x : NewsItem) (a : Int)
    (h : pkTs lib x = some a) :
    ∃ e, existingParse lib x = some e ∧ e.ts = a := by
  unfold pkTs at h
  cases he : existingParse lib x with
  | none => rw [he] at h; simp at h
  | some e =>
    rw [he] at h
    simp at h
    exact ⟨e, rfl, h⟩

theorem keep_iff_ts (lib : DTLib) (ex it : NewsItem) (a b : Int)
    (ha : pkTs lib ex = some a) (hb : pkTs lib it = some b) :
    keepExisting (existingParse lib ex) (recencyParse lib it) = true ↔ b ≤ a := by
  obtain ⟨e, he, hea⟩ := existingParse_of_pkTs lib ex a ha
  obtain ⟨p, hp, hpb⟩ := recencyParse_ts lib it b hb
  rw [he, hp]
  show decide (p.ts ≤ e.ts) = true ↔ b ≤ a
  rw [hea, hpb]
  simp

theorem keep_false_right (lib : DTLib) (ex it : NewsItem)
    (h : pkTs lib it = none) :
    keepExisting (existingParse lib ex) (recencyParse lib it) = false := by
  rw [(recencyParse_eq_none_iff lib it).mpr h]
  unfold keepExisting
  cases existingParse lib ex <;> rfl

theorem keep_false_left (lib : DTLib) (ex it : NewsItem)
    (h : pkTs lib ex = none) :
    keepExisting (existingParse lib ex) (recencyParse lib it) = false := by
  have he : existingParse lib ex = none := Option.map_eq_none.mp h
  rw [he]
  unfold keepExisting
  cases recencyParse lib it <;> rfl

theorem stepK_unknown_incoming (lib : DTLib) (s : Option NewsItem)
    (it : NewsItem) (h : pkTs lib it = none) : stepK lib s it = it := by
  cases s with
  | none => rfl
  | some ex => simp [stepK, keep_false_right lib ex it h]

theorem pkTs_stepK_known (lib : DTLib) (s : Option NewsItem) (it : NewsItem)
    (h : pkTs lib it ≠ none) : pkTs lib (stepK lib s it) ≠ none := by
  cases s with
  | none => exact h
  | some ex =>
    show pkTs lib
      (if keepExisting (existingParse lib ex) (recencyParse lib it) = true
        then ex else it) ≠ none
    by_cases hk : keepExisting (existingParse lib ex) (recencyParse lib it) = true
    · rw [if_pos hk]
      intro hex
      rw [keep_false_left lib ex it hex] at hk
      exact Bool.false_ne_true hk
    · rw [if_neg hk]
      exact h

/-! ## Per-key fold lemmas for idempotence -/

theorem foldK_const_of_unknown (lib : DTLib) :
    ∀ (l : List NewsItem), (∃ u ∈ l, pkTs lib u = none) →
      ∀ s₁ s₂, foldK lib s₁ l = foldK lib s₂ l := by
  intro l
  induction l with
  | nil => intro h; simp at h
  | cons it rest ih =>
    intro h s₁ s₂
    by_cases hit : pkTs lib it = none
    · show foldK lib (some (stepK lib s₁ it)) rest =
        foldK lib (some (stepK lib s₂ it)) rest
      rw [stepK_unknown_incoming lib s₁ it hit,
        stepK_unknown_incoming lib s₂ it hit]
    · have hrest : ∃ u ∈ rest, pkTs lib u = none := by
        rcases h with ⟨u, hu, hpk⟩
        rcases List.mem_cons.mp hu with rfl | hu'
        · exact absurd hpk hit
        · exact ⟨u, hu', hpk⟩
      exact ih hrest _ _

theorem stepK_keep (lib : DTLib) (w0 u : NewsItem)
    (hkeep : keepExisting (existingParse lib w0) (recencyParse lib u) = true) :
    stepK lib (some w0) u = w0 := by
  show (if keepExisting (existingParse lib w0) (recencyParse lib u) = true
    then w0 else u) = w0
  rw [if_pos hkeep]

theorem stepK_overwrite (lib : DTLib) (w0 u : NewsItem)
    (hkeep : ¬keepExisting (existingParse lib w0) (recencyParse lib u) = true) :
    stepK lib (some w0) u = u := by
  show (if keepExisting (existingParse lib w0) (recencyParse lib u) = true
    then w0 else u) = u
  rw [if_neg hkeep]

theorem foldK_dom (lib : DTLib) :
    ∀ (l : List NewsItem) (w0 : NewsItem) (tw0 : Int),
      (∀ u ∈ l, pkTs lib u ≠ none) → pkTs lib w0 = some tw0 →
      ∃ w tw, foldK lib (some w0) l = some w ∧ pkTs lib w = some tw ∧
        tw0 ≤ tw ∧ ∀ u ∈ l, ∀ t, pkTs lib u = some t → t ≤ tw := by
  intro l
  induction l with
  | nil =>
    intro w0 tw0 _ hw0
    exact ⟨w0, tw0, rfl, hw0, le_refl tw0, by simp⟩
  | cons u rest ih =>
    intro w0 tw0 hall hw0
    have hu : pkTs lib u ≠ none := hall u (List.mem_cons_self u rest)
    obtain ⟨tu, htu⟩ := Option.ne_none_iff_exists'.mp hu
    have hrest : ∀ x ∈ rest, pkTs lib x ≠ none :=
      fun x hx => hall x (List.mem_cons_of_mem u hx)
    by_cases hcmp : tu ≤ tw0
    · have hkeep : keepExisting (existingParse lib w0) (recencyParse lib u) = true :=
        (keep_iff_ts lib w0 u tw0 tu hw0 htu).mpr hcmp
      obtain ⟨w, tw, hfold, hw, hle, hdom⟩ := ih w0 tw0 hrest hw0
      refine ⟨w, tw, ?_, hw, hle, ?_⟩
      · show foldK lib (some (stepK lib (some w0) u)) rest = some w
        rw [stepK_keep lib w0 u hkeep]
        exact hfold
      · intro x hx t ht
        rcases List.mem_cons.mp hx with rfl | hx'
        · have : tu = t := Option.some_inj.mp (htu ▸ ht)
          rw [← this]
          exact le_trans hcmp hle
        · exact hdom x hx' t ht
    · have hkeep : ¬keepExisting (existingParse lib w0) (recencyParse lib u) = true := by
        intro hk
        exact hcmp ((keep_iff_ts lib w0 u tw0 tu hw0 htu).mp hk)
      obtain ⟨w, tw, hfold, hw, hle, hdom⟩ := ih u tu hrest htu
      refine ⟨w, tw, ?_, hw, le_trans (le_of_lt (not_le.mp hcmp)) hle, ?_⟩
      · show foldK lib (some (stepK lib (some w0) u)) rest = some w
        rw [stepK_overwrite lib w0 u hkeep]
        exact hfold
      · intro x hx t ht
        rcases List.mem_cons.mp hx with rfl | hx'
        · have : tu = t := Option.some_inj.mp (htu ▸ ht)
          rw [← this]
          exact hle
        · exact hdom x hx' t ht

theorem foldK_absorb (lib : DTLib) :
    ∀ (l : List NewsItem) (v : NewsItem) (tv : Int),
      pkTs lib v = some tv →
      (∀ u ∈ l, ∀ t, pkTs lib u = some t → t ≤ tv) →
      (∀ u ∈ l, pkTs lib u ≠ none) →
      foldK lib (some v) l = some v := by
  intro l
  induction l with
  | nil => intro v tv _ _ _; rfl
  | cons u rest ih =>
    intro v tv hv hdom hall
    obtain ⟨tu, htu⟩ :=
      Option.ne_none_iff_exists'.mp (hall u (List.mem_cons_self u rest))
    have hle : tu ≤ tv := hdom u (List.mem_cons_self u rest) tu htu
    have hkeep := (keep_iff_ts lib v u tv tu hv htu).mpr hle
    show foldK lib (some (stepK lib (some v) u)) rest = some v
    rw [stepK_keep lib v u hkeep]
    exact ih v tv hv
      (fun x hx t ht => hdom x (List.mem_cons_of_mem u hx) t ht)
      (fun x hx => hall x (List.mem_cons_of_mem u hx))

theorem foldK_idem (lib : DTLib) (l : List NewsItem) :
    foldK lib (foldK lib none l) l = foldK lib none l := by
  by_cases hunk : ∃ u ∈ l, pkTs lib u = none
  · exact foldK_const_of_unknown lib l hunk _ none
  · push_neg at hunk
    cases l with
    | nil => rfl
    | cons it rest =>
      have hit : pkTs lib it ≠ none := hunk it (List.mem_cons_self it rest)
      obtain ⟨ti, hti⟩ := Option.ne_none_iff_exists'.mp hit
      have hrest : ∀ x ∈ rest, pkTs lib x ≠ none :=
        fun x hx => hunk x (List.mem_cons_of_mem it hx)
      obtain ⟨w, tw, hfold, hw, hle, hdom⟩ := foldK_dom lib rest it ti hrest hti
      have hfold0 : foldK lib none (it :: rest) = some w := hfold
      rw [hfold0]
      apply foldK_absorb lib (it :: rest) w tw hw ?_ hunk
      intro u hu t ht
      rcases List.mem_cons.mp hu with rfl | hu'
      · have : ti = t := Option.some_inj.mp (hti ▸ ht)
        rw [← this]
        exact hle
      · exact hdom u hu' t ht

/-! ## Lifting the per-key fold to the mapping -/

theorem dictGet_eq_none_iff (m : Dict) (k : String) :
    dictGet m k = none ↔ k ∉ dictKeys m := by
  induction m with
  | nil => simp [dictGet, dictKeys]
  | cons a t ih =>
    obtain ⟨k0, v0⟩ := a
    rw [dictGet_cons]
    by_cases h : k0 = k
    · simp [h, dictKeys]
    · rw [if_neg h, ih]
      simp only [dictKeys, List.map_cons, List.mem_cons]
      constructor
      · intro hnot hor
        rcases hor with heq | hmem
        · exact h heq.symm
        · exact hnot hmem
      · intro hnot hmem
        exact hnot (Or.inr hmem)

theorem dictGet_mergeItem (lib : DTLib) (m : Dict) (it : NewsItem) (k : String) :
    dictGet (mergeItem lib m it) k =
      if rstripSlashes it.link = k then some (stepK lib (dictGet m k) it)
      else dictGet m k := by
  unfold mergeItem merge_step
  cases hex : dictGet m (rstripSlashes it.link) with
  | some ex =>
    show dictGet
      (if keepExisting (existingParse lib ex) (recencyParse lib it) = true
        then m else dictSet m (rstripSlashes it.link) it) k = _
    by_cases hkeep : keepExisting (existingParse lib ex) (recencyParse lib it) = true
    · rw [if_pos hkeep]
      by_cases hk : rstripSlashes it.link = k
      · subst hk
        rw [if_pos rfl, hex]
        show some ex = some (stepK lib (some ex) it)
        rw [stepK_keep lib ex it hkeep]
      · rw [if_neg hk]
    · rw [if_neg hkeep]
      by_cases hk : rstripSlashes it.link = k
      · subst hk
        rw [if_pos rfl, dictGet_set_self, hex]
        show some it = some (stepK lib (some ex) it)
        rw [stepK_overwrite lib ex it hkeep]
      · rw [if_neg hk, dictGet_set_of_ne m _ k it (fun hh => hk hh.symm)]
  | none =>
    show dictGet (dictSet m (rstripSlashes it.link) it) k = _
    by_cases hk : rstripSlashes it.link = k
    · subst hk
      rw [if_pos rfl, dictGet_set_self, hex]
      rfl
    · rw [if_neg hk, dictGet_set_of_ne m _ k it (fun hh => hk hh.symm)]

theorem dictGet_fold_mergeItem (lib : DTLib) :
    ∀ (L : List NewsItem) (m : Dict) (k : String),
      dictGet (L.foldl (mergeItem lib) m) k =
        foldK lib (dictGet m k)
          (L.filter (fun it => rstripSlashes it.link = k)) := by
  intro L
  induction L with
  | nil => intro m k; rfl
  | cons it rest ih =>
    intro m k
    show dictGet (rest.foldl (mergeItem lib) (mergeItem lib m it)) k = _
    rw [ih (mergeItem lib m it) k, dictGet_mergeItem lib m it k]
    by_cases hk : rstripSlashes it.link = k
    · rw [if_pos hk, List.filter_cons_of_pos (by simpa using hk)]
      rfl
    · rw [if_neg hk, List.filter_cons_of_neg (by simpa using hk)]

/-! ## Key-set lemmas for the fold -/

theorem dictKeys_replace (m : Dict) (k : String) (v : NewsItem) :
    dictKeys (m.map (fun p => if p.1 = k then (k, v) else p)) = dictKeys m := by
  induction m with
  | nil => rfl
  | cons a t ih =>
    simp only [List.map_cons]
    show (if a.1 = k then (k, v) else a).1 :: dictKeys
      (t.map (fun p => if p.1 = k then (k, v) else p)) = a.1 :: dictKeys t
    by_cases h : a.1 = k
    · rw [if_pos h, ih, h]
    · rw [if_neg h, ih]

theorem dictKeys_set (m : Dict) (k : String) (v : NewsItem) :
    dictKeys (dictSet m k v) =
      if k ∈ dictKeys m then dictKeys m else dictKeys m ++ [k] := by
  unfold dictSet
  by_cases hmem : k ∈ dictKeys m
  · rw [if_pos ((any_eq_mem_dictKeys m k).mpr hmem), if_pos hmem,
      dictKeys_replace]
  · rw [if_neg (fun hh => hmem ((any_eq_mem_dictKeys m k).mp hh)), if_neg hmem]
    simp [dictKeys]

theorem dictKeys_mergeItem (lib : DTLib) (m : Dict) (it : NewsItem) :
    dictKeys (mergeItem lib m it) =
      if rstripSlashes it.link ∈ dictKeys m then dictKeys m
      else dictKeys m ++ [rstripSlashes it.link] := by
  unfold mergeItem merge_step
  cases hex : dictGet m (rstripSlashes it.link) with
  | some ex =>
    have hmem : rstripSlashes it.link ∈ dictKeys m := by
      by_contra hmem
      rw [(dictGet_eq_none_iff m _).mpr hmem] at hex
      exact Option.noConfusion hex
    show dictKeys
      (if keepExisting (existingParse lib ex) (recencyParse lib it) = true
        then m else dictSet m (rstripSlashes it.link) it) = _
    rw [if_pos hmem]
    by_cases hkeep : keepExisting (existingParse lib ex) (recencyParse lib it) = true
    · rw [if_pos hkeep]
    · rw [if_neg hkeep, dictKeys_set, if_pos hmem]
  | none =>
    have hmem : rstripSlashes it.link ∉ dictKeys m :=
      (dictGet_eq_none_iff m _).mp hex
    show dictKeys (dictSet m (rstripSlashes it.link) it) = _
    rw [if_neg hmem, dictKeys_set, if_neg hmem]

theorem mem_dictKeys_mergeItem (lib : DTLib) (m : Dict) (it : NewsItem)
    (k : String) (h : k ∈ dictKeys m) : k ∈ dictKeys (mergeItem lib m it) := by
  rw [dictKeys_mergeItem]
  by_cases hmem : rstripSlashes it.link ∈ dictKeys m
  · rw [if_pos hmem]; exact h
  · rw [if_neg hmem]; exact List.mem_append_left _ h

theorem key_mem_dictKeys_mergeItem (lib : DTLib) (m : Dict) (it : NewsItem) :
    rstripSlashes it.link ∈ dictKeys (mergeItem lib m it) := by
  rw [dictKeys_mergeItem]
  by_cases hmem : rstripSlashes it.link ∈ dictKeys m
  · rw [if_pos hmem]; exact hmem
  · rw [if_neg hmem]; exact List.mem_append_right _ (List.mem_singleton.mpr rfl)

theorem mem_dictKeys_fold (lib : DTLib) :
    ∀ (L : List NewsItem) (m : Dict) (k : String), k ∈ dictKeys m →
      k ∈ dictKeys (L.foldl (mergeItem lib) m) := by
  intro L
  induction L with
  | nil => intro m k h; exact h
  | cons it rest ih =>
    intro m k h
    exact ih (mergeItem lib m it) k (mem_dictKeys_mergeItem lib m it k h)

theorem key_mem_fold (lib : DTLib) :
    ∀ (L : List NewsItem) (m : Dict) (it : NewsItem), it ∈ L →
      rstripSlashes it.link ∈ dictKeys (L.foldl (mergeItem lib) m) := by
  intro L
  induction L with
  | nil => intro m it h; simp at h
  | cons x rest ih =>
    intro m it h
    rcases List.mem_cons.mp h with rfl | h'
    · exact mem_dictKeys_fold lib rest (mergeItem lib m it) _
        (key_mem_dictKeys_mergeItem lib m it)
    · exact ih (mergeItem lib m x) it h'

theorem dictKeys_fold_eq (lib : DTLib) :
    ∀ (L : List NewsItem) (m : Dict),
      (∀ it ∈ L, rstripSlashes it.link ∈ dictKeys m) →
      dictKeys (L.foldl (mergeItem lib) m) = dictKeys m := by
  intro L
  induction L with
  | nil => intro m _; rfl
  | cons it rest ih =>
    intro m hall
    have hkeys : dictKeys (mergeItem lib m it) = dictKeys m := by
      rw [dictKeys_mergeItem,
        if_pos (hall it (List.mem_cons_self it rest))]
    show dictKeys (rest.foldl (mergeItem lib) (mergeItem lib m it)) = dictKeys m
    rw [ih (mergeItem lib m it)
      (fun x hx => hkeys ▸ hall x (List.mem_cons_of_mem it hx)), hkeys]

theorem dictKeys_set_nodup (m : Dict) (k : String) (v : NewsItem)
    (h : (dictKeys m).Nodup) : (dictKeys (dictSet m k v)).Nodup := by
  rw [dictKeys_set]
  by_cases hmem : k ∈ dictKeys m
  · rw [if_pos hmem]; exact h
  · rw [if_neg hmem]
    rw [List.nodup_append]
    exact ⟨h, List.nodup_singleton k,
      fun a ha hb => hmem ((List.mem_singleton.mp hb) ▸ ha)⟩

theorem dictKeys_mergeItem_nodup (lib : DTLib) (m : Dict) (it : NewsItem)
    (h : (dictKeys m).Nodup) : (dictKeys (mergeItem lib m it)).Nodup := by
  rw [dictKeys_mergeItem]
  by_cases hmem : rstripSlashes it.link ∈ dictKeys m
  · rw [if_pos hmem]; exact h
  · rw [if_neg hmem]
    rw [List.nodup_append]
    exact ⟨h, List.nodup_singleton _,
      fun a ha hb => hmem ((List.mem_singleton.mp hb) ▸ ha)⟩

theorem dictKeys_fold_nodup (lib : DTLib) :
    ∀ (L : List NewsItem) (m : Dict), (dictKeys m).Nodup →
      (dictKeys (L.foldl (mergeItem lib) m)).Nodup := by
  intro L
  induction L with
  | nil => intro m h; exact h
  | cons it rest ih =>
    intro m h
    exact ih (mergeItem lib m it) (dictKeys_mergeItem_nodup lib m it h)

/-! ## Reconstruction and idempotence of the merge fold -/

theorem dict_ext :
    ∀ (m1 m2 : Dict), dictKeys m1 = dictKeys m2 → (dictKeys m1).Nodup →
      (∀ k, dictGet m1 k = dictGet m2 k) → m1 = m2 := by
  intro m1
  induction m1 with
  | nil =>
    intro m2 hkeys _ _
    cases m2 with
    | nil => rfl
    | cons b t2 => simp [dictKeys] at hkeys
  | cons a t1 ih =>
    intro m2 hkeys hnd hget
    cases m2 with
    | nil => simp [dictKeys] at hkeys
    | cons b t2 =>
      obtain ⟨k1, v1⟩ := a
      obtain ⟨k2, v2⟩ := b
      have hk12 : k1 = k2 := by
        have := congrArg List.head? hkeys
        simpa [dictKeys] using this
      have hkt : dictKeys t1 = dictKeys t2 := by
        have := congrArg List.tail hkeys
        simpa [dictKeys] using this
      subst hk12
      have hv : v1 = v2 := by
        have := hget k1
        rw [dictGet_cons, dictGet_cons, if_pos rfl, if_pos rfl] at this
        injection this
      subst hv
      have hnotmem : k1 ∉ dictKeys t1 := by
        simp only [dictKeys, List.map_cons] at hnd
        exact (List.nodup_cons.mp hnd).1
      have hnd1 : (dictKeys t1).Nodup := by
        simp only [dictKeys, List.map_cons] at hnd
        exact (List.nodup_cons.mp hnd).2
      have hgets : ∀ k, dictGet t1 k = dictGet t2 k := by
        intro k
        by_cases hkk : k = k1
        · subst hkk
          rw [(dictGet_eq_none_iff t1 k).mpr hnotmem,
            (dictGet_eq_none_iff t2 k).mpr (hkt ▸ hnotmem)]
        · have := hget k
          rw [dictGet_cons, dictGet_cons,
            if_neg (fun hh => hkk hh.symm), if_neg (fun hh => hkk hh.symm)] at this
          exact this
      rw [ih t2 hkt hnd1 hgets]

theorem fold_mergeItem_idem (lib : DTLib) (L : List NewsItem) :
    L.foldl (mergeItem lib) (L.foldl (mergeItem lib) []) =
      L.foldl (mergeItem lib) [] := by
  have hpresent : ∀ it ∈ L,
      rstripSlashes it.link ∈ dictKeys (L.foldl (mergeItem lib) []) :=
    fun it hit => key_mem_fold lib L [] it hit
  have hkeys : dictKeys (L.foldl (mergeItem lib) (L.foldl (mergeItem lib) []))
      = dictKeys (L.foldl (mergeItem lib) []) :=
    dictKeys_fold_eq lib L _ hpresent
  apply dict_ext _ _ hkeys
  · rw [hkeys]
    exact dictKeys_fold_nodup lib L [] (by simp [dictKeys])
  · intro k
    rw [dictGet_fold_mergeItem lib L (L.foldl (mergeItem lib) []) k,
      dictGet_fold_mergeItem lib L [] k]
    exact foldK_idem lib (L.filter (fun it => rstripSlashes it.link = k))

/-! ## The normalized item stream (claim C7 assembly) -/

theorem processEntries_eq (lib : DTLib) (cutoff : Int) (t c : String) :
    ∀ (entries : List RawEntry) (m : Dict),
      processEntries lib cutoff t c m entries =
        (entries.filterMap (fun e => parse_entry lib e t c)).foldl
          (processItem lib cutoff) m := by
  intro entries
  induction entries with
  | nil => intro m; rfl
  | cons e rest ih =>
    intro m
    cases hpe : parse_entry lib e t c with
    | none =>
      show processEntries lib cutoff t c
        (match parse_entry lib e t c with
          | none => m
          | some item => processItem lib cutoff m item) rest = _
      rw [hpe, @List.filterMap_cons_none RawEntry NewsItem
        (fun x => parse_entry lib x t c) e rest hpe]
      exact ih m
    | some it =>
      show processEntries lib cutoff t c
        (match parse_entry lib e t c with
          | none => m
          | some item => processItem lib cutoff m item) rest = _
      rw [hpe, @List.filterMap_cons_some RawEntry NewsItem
        (fun x => parse_entry lib x t c) e rest it hpe]
      exact ih (processItem lib cutoff m it)

theorem aggregate_from_eq (lib : DTLib) (cutoff : Int)
    (fetch : String → List RawEntry) :
    ∀ (feeds : List (String × String × String)) (m : Dict),
      aggregate_from lib cutoff feeds fetch m =
        (itemStream lib feeds fetch).foldl (processItem lib cutoff) m := by
  intro feeds
  induction feeds with
  | nil => intro m; rfl
  | cons f fs ih =>
    intro m
    show aggregate_from lib cutoff fs fetch
      (processEntries lib cutoff f.1 f.2.2 m (fetch f.2.1)) = _
    rw [ih, processEntries_eq]
    show _ = ((fetch f.2.1).filterMap (fun e => parse_entry lib e f.1 f.2.2)
      ++ itemStream lib fs fetch).foldl (processItem lib cutoff) m
    rw [List.foldl_append]

theorem fold_processItem_eq_filter (lib : DTLib) (cutoff : Int) :
    ∀ (L : List NewsItem) (m : Dict),
      L.foldl (processItem lib cutoff) m =
        (L.filter (fun it => !dropOld (recencyParse lib it) cutoff)).foldl
          (mergeItem lib) m := by
  intro L
  induction L with
  | nil => intro m; rfl
  | cons it rest ih =>
    intro m
    show rest.foldl (processItem lib cutoff) (processItem lib cutoff m it) = _
    by_cases hd : dropOld (recencyParse lib it) cutoff = true
    · rw [List.filter_cons_of_neg (by simp [hd])]
      have hstep : processItem lib cutoff m it = m := by
        unfold processItem
        rw [if_pos hd]
      rw [hstep]
      exact ih m
    · rw [List.filter_cons_of_pos (by simp [hd])]
      have hstep : processItem lib cutoff m it = mergeItem lib m it := by
        unfold processItem
        rw [if_neg hd]
        rfl
      rw [hstep]
      exact ih (mergeItem lib m it)

/-- Claim C7: the aggregation merge is idempotent over its input — running
the feed loop a second time, processing every entry again against the
mapping produced by the first pass (same subscriptions, same fetch results,
same cutoff), yields exactly the mapping of the first pass. -/
theorem claim_C7 (lib : DTLib) (cutoff : Int)
    (feeds : List (String × String × String))
    (fetch : String → List RawEntry) :
    aggregate_from lib cutoff feeds fetch (aggregate lib cutoff feeds fetch) =
      aggregate lib cutoff feeds fetch := by
  unfold aggregate
  rw [aggregate_from_eq lib cutoff fetch feeds,
    aggregate_from_eq lib cutoff fetch feeds,
    fold_processItem_eq_filter, fold_processItem_eq_filter]
  exact fold_mergeItem_idem lib _

/-! ## Writer ordering (claim C8) -/

/-- Claim C8: the writer's `items_list` is a permutation of the mapping's
values (so an item with no parseable timestamp is retained, its `published`
field still `none`), it is ordered by weakly decreasing numeric sort key,
every item with unknown or unparseable `published` has sort key `0`, and
consequently a positively-keyed (dated) item never follows a zero-keyed
one — undated items sort after all positively-timestamped items. -/
theorem claim_C8 (lib : DTLib) (m : Dict) :
    (items_list lib m).Perm (dictValues m) ∧
    (items_list lib m).Pairwise (fun a b => sort_key lib b ≤ sort_key lib a) ∧
    (items_list lib m).Pairwise
      (fun a b => 0 < sort_key lib b → 0 < sort_key lib a) ∧
    (∀ x : NewsItem, x.published = none → sort_key lib x = 0) := by
  have htrans : ∀ (a b c : NewsItem),
      (fun a b => decide (sort_key lib b ≤ sort_key lib a)) a b = true →
      (fun a b => decide (sort_key lib b ≤ sort_key lib a)) b c = true →
      (fun a b => decide (sort_key lib b ≤ sort_key lib a)) a c = true := by
    intro a b c hab hbc
    simp only [decide_eq_true_eq] at hab hbc ⊢
    exact le_trans hbc hab
  have htotal : ∀ (a b : NewsItem),
      ((fun a b => decide (sort_key lib b ≤ sort_key lib a)) a b ||
        (fun a b => decide (sort_key lib b ≤ sort_key lib a)) b a) = true := by
    intro a b
    simp only [Bool.or_eq_true, decide_eq_true_eq]
    exact le_total (sort_key lib b) (sort_key lib a)
  have hpair0 := List.sorted_mergeSort htrans htotal (dictValues m)
  have hpair : (items_list lib m).Pairwise
      (fun a b => sort_key lib b ≤ sort_key lib a) :=
    hpair0.imp (fun h => by simpa using h)
  refine ⟨List.mergeSort_perm (dictValues m) _, hpair, ?_, ?_⟩
  · exact hpair.imp (fun hab h0 => lt_of_lt_of_le h0 hab)
  · intro x hx
    simp [sort_key, hx]

/-- Claim C8 witness: the undated item has sort key `0`. -/
theorem claim_C8_witness : sort_key lib0 itemNoDate = 0 :=
  (claim_C8 lib0 mK).2.2.2 itemNoDate rfl

/-! ## Subscription loader (claim C9) -/

theorem loadSpec_nil : loadSpec [] = [] := by rw [loadSpec]

theorem loadSpec_cons_none (e : Outline) (rest : List Outline)
    (h : e.xmlUrl = none) : loadSpec (e :: rest) = loadSpec rest := by
  rw [loadSpec, h]

theorem loadSpec_cons_empty (e : Outline) (rest : List Outline) (u : String)
    (h : e.xmlUrl = some u) (hu : u = "") :
    loadSpec (e :: rest) = loadSpec rest := by
  rw [loadSpec, h]
  show (if u = "" then loadSpec rest
    else (outlineTitle e u, u, guess_category_from_title (outlineCatText e)) ::
      loadSpec (rest.filter (fun x => x.xmlUrl ≠ some u))) = loadSpec rest
  rw [if_pos hu]

theorem loadSpec_cons_some (e : Outline) (rest : List Outline) (u : String)
    (h : e.xmlUrl = some u) (hu : u ≠ "") :
    loadSpec (e :: rest) =
      (outlineTitle e u, u, guess_category_from_title (outlineCatText e)) ::
        loadSpec (rest.filter (fun x => x.xmlUrl ≠ some u)) := by
  rw [loadSpec, h]
  show (if u = "" then loadSpec rest
    else (outlineTitle e u, u, guess_category_from_title (outlineCatText e)) ::
      loadSpec (rest.filter (fun x => x.xmlUrl ≠ some u))) = _
  rw [if_neg hu]

theorem parse_opml_go :
    ∀ (os : List Outline) (acc : List (String × String × String))
      (seen : List String),
      (os.foldl opmlStep (acc, seen)).1 =
        acc ++ loadSpec (os.filter (fun e =>
          match e.xmlUrl with
          | some u => decide (u ∉ seen)
          | none => true)) := by
  intro os
  induction os with
  | nil =>
    intro acc seen
    rw [List.filter_nil, loadSpec_nil, List.append_nil]
    rfl
  | cons e os' ih =>
    intro acc seen
    show (os'.foldl opmlStep (opmlStep (acc, seen) e)).1 = _
    cases hu : e.xmlUrl with
    | none =>
      have hstep : opmlStep (acc, seen) e = (acc, seen) := by
        unfold opmlStep; rw [hu]
      rw [hstep, List.filter_cons_of_pos (by simp [hu]),
        loadSpec_cons_none e _ hu]
      exact ih acc seen
    | some u =>
      by_cases hcase : u = "" ∨ u ∈ seen
      · have hstep : opmlStep (acc, seen) e = (acc, seen) := by
          unfold opmlStep; rw [hu]
          show (if u = "" ∨ u ∈ seen then (acc, seen)
            else (acc ++ [(outlineTitle e u, u,
              guess_category_from_title (outlineCatText e))], u :: seen)) =
            (acc, seen)
          rw [if_pos hcase]
        rw [hstep]
        rcases hcase with he | hin
        · by_cases hm : u ∈ seen
          · rw [List.filter_cons_of_neg (by simp [hu, hm])]
            exact ih acc seen
          · rw [List.filter_cons_of_pos (by simp [hu, hm]),
              loadSpec_cons_empty e _ u hu he]
            exact ih acc seen
        · rw [List.filter_cons_of_neg (by simp [hu, hin])]
          exact ih acc seen
      · push_neg at hcase
        obtain ⟨hne, hnin⟩ := hcase
        have hstep : opmlStep (acc, seen) e =
            (acc ++ [(outlineTitle e u, u,
              guess_category_from_title (outlineCatText e))], u :: seen) := by
          unfold opmlStep; rw [hu]
          show (if u = "" ∨ u ∈ seen then (acc, seen)
            else (acc ++ [(outlineTitle e u, u,
              guess_category_from_title (outlineCatText e))], u :: seen)) = _
          rw [if_neg (not_or.mpr ⟨hne, hnin⟩)]
        rw [hstep, List.filter_cons_of_pos (by simp [hu, hnin]),
          loadSpec_cons_some e _ u hu hne, ih, List.filter_filter]
        have hpred : os'.filter (fun a =>
            match a.xmlUrl with
            | some v => decide (v ∉ u :: seen)
            | none => true) = os'.filter (fun a =>
              decide (a.xmlUrl ≠ some u) &&
                match a.xmlUrl with
                | some v => decide (v ∉ seen)
                | none => true) := by
          apply List.filter_congr
          intro a _
          cases ha : a.xmlUrl with
          | none => simp [ha]
          | some v =>
            by_cases hv : v = u
            · simp [ha, hv]
            · by_cases hvs : v ∈ seen
              · simp [ha, hv, hvs]
              · simp [ha, hv, hvs]
        rw [hpred]
        rw [List.append_assoc, List.singleton_append]

theorem parse_opml_go_nodup :
    ∀ (os : List Outline) (acc : List (String × String × String))
      (seen : List String),
      (acc.map (fun f => f.2.1)).Nodup →
      (∀ v, v ∈ acc.map (fun f => f.2.1) → v ∈ seen) →
      (((os.foldl opmlStep (acc, seen)).1).map (fun f => f.2.1)).Nodup := by
  intro os
  induction os with
  | nil => intro acc seen hnd _; exact hnd
  | cons e os' ih =>
    intro acc seen hnd hsub
    show (((os'.foldl opmlStep (opmlStep (acc, seen) e)).1).map _).Nodup
    cases hu : e.xmlUrl with
    | none =>
      have hstep : opmlStep (acc, seen) e = (acc, seen) := by
        unfold opmlStep; rw [hu]
      rw [hstep]
      exact ih acc seen hnd hsub
    | some u =>
      by_cases hcase : u = "" ∨ u ∈ seen
      · have hstep : opmlStep (acc, seen) e = (acc, seen) := by
          unfold opmlStep; rw [hu]
          show (if u = "" ∨ u ∈ seen then (acc, seen)
            else (acc ++ [(outlineTitle e u, u,
              guess_category_from_title (outlineCatText e))], u :: seen)) =
            (acc, seen)
          rw [if_pos hcase]
        rw [hstep]
        exact ih acc seen hnd hsub
      · push_neg at hcase
        obtain ⟨hne, hnin⟩ := hcase
        have hstep : opmlStep (acc, seen) e =
            (acc ++ [(outlineTitle e u, u,
              guess_category_from_title (outlineCatText e))], u :: seen) := by
          unfold opmlStep; rw [hu]
          show (if u = "" ∨ u ∈ seen then (acc, seen)
            else (acc ++ [(outlineTitle e u, u,
              guess_category_from_title (outlineCatText e))], u :: seen)) = _
          rw [if_neg (not_or.mpr ⟨hne, hnin⟩)]
        rw [hstep]
        apply ih
        · rw [List.map_append, List.nodup_append]
          refine ⟨hnd, List.nodup_singleton u, ?_⟩
          intro a ha hb
          simp only [List.map_cons, List.map_nil, List.mem_singleton] at hb
          exact hnin (hb ▸ hsub a ha)
        · intro v hv
          rw [List.map_append] at hv
          rcases List.mem_append.mp hv with hv | hv
          · exact List.mem_cons_of_mem u (hsub v hv)
          · simp only [List.map_cons, List.map_nil, List.mem_singleton] at hv
            exact hv ▸ List.mem_cons_self u seen

/-- Claim C9: the Subscription Loader equals the spec-modelled loader —
an ordered sequence of `(title, url, category)` triples, one per outline
node with a non-empty feed url, first occurrence of each url kept and
later duplicates silently dropped, the display title falling back
`title` → `text` → url, and the category classifying the `title`/`text`
string — and its url column has no duplicates. -/
theorem claim_C9 (os : List Outline) :
    parse_opml os = loadSpec os ∧
      ((parse_opml os).map (fun f => f.2.1)).Nodup := by
  constructor
  · show (os.foldl opmlStep ([], [])).1 = loadSpec os
    have hfil : os.filter (fun e =>
        match e.xmlUrl with
        | some u => decide (u ∉ ([] : List String))
        | none => true) = os := by
      rw [List.filter_eq_self]
      intro a _
      cases ha : a.xmlUrl <;> simp [ha]
    rw [parse_opml_go os [] [], hfil, List.nil_append]
  · exact parse_opml_go_nodup os [] [] (by simp) (by simp)
